import Mathlib

/-!
# Verification of the semantic footage search pipeline

This file formalises the retrieval-and-ranking pipeline of the semantic
footage search engine (hybrid RRF merge, score normalisation, filter
fallback, filter matching, limit clamping, the staged streaming protocol,
the frontend stream consumer `searchStream` and the `ClipCard` rendering
logic) as a shallow embedding, and proves the behavioural properties
claimed for them.

The backend pipeline itself (merge, normalise, fallback, matching,
orchestration) is not present in the available sources — only its
documentation and its frontend consumers are — so those components are
modelled directly from the specification text (§4.1–§4.5).  The frontend
pieces (`searchStream` in `lib/api.ts` and `ClipCard`) are embedded from
their TypeScript source.
-/

namespace CineAI

/-! ## Hybrid Merge Engine — Reciprocal Rank Fusion (§4.2) -/

/-- Modelled from the spec: the backend merge function is absent from the
sources; §4.2 uses the 1-based position of a clip id in a ranked list
(`none` when the clip is absent from the list). -/
def rank1 (l : List String) (c : String) : Option ℕ :=
  (List.indexOf? c l).map (· + 1)

/-- Modelled from the spec: §4.2 — the reciprocal-rank term `1 / (k + rank)`
contributed by one list; a clip absent from the list contributes `0`. -/
def rrfTerm (k : ℚ) (l : List String) (c : String) : ℚ :=
  match rank1 l c with
  | some r => 1 / (k + (r : ℚ))
  | none => 0

/-- Modelled from the spec: §4.2 — fused score of a clip id, the sum of its
reciprocal-rank terms over the two input lists. -/
def fusedScore (k : ℚ) (A B : List String) (c : String) : ℚ :=
  rrfTerm k A c + rrfTerm k B c

/-- Modelled from the spec: §4.2 — the clip id's best (lowest) 1-based rank
in either input list, used as the first tie-break key. -/
def bestRank (A B : List String) (c : String) : ℕ :=
  match rank1 A c, rank1 B c with
  | some r, some s => min r s
  | some r, none => r
  | none, some s => s
  | none, none => 0

/-- Sort key realising §4.2's order: descending fused score, then best
(lowest) rank, then the clip id itself in lexicographic order. -/
def rrfKey (k : ℚ) (A B : List String) (c : String) : Lex (ℚ × Lex (ℕ × String)) :=
  toLex (-(fusedScore k A B c), toLex (bestRank A B c, c))

/-- The (total, decidable) sort relation used by the merge. -/
def rrfLE (k : ℚ) (A B : List String) (a b : String) : Prop :=
  rrfKey k A B a ≤ rrfKey k A B b

instance (k : ℚ) (A B : List String) : DecidableRel (rrfLE k A B) :=
  fun a b => inferInstanceAs (Decidable (rrfKey k A B a ≤ rrfKey k A B b))

/-- Modelled from the spec: §4.2 `merge(listA, listB, k)` — deduplicate the
union of the two ranked clip-id lists and sort it by descending fused
score with the documented tie-breaks. -/
def merge (A B : List String) (k : ℚ) : List String :=
  List.insertionSort (rrfLE k A B) (A ++ B).dedup

theorem rrfKey_inj {k : ℚ} {A B : List String} {a b : String}
    (h : rrfKey k A B a = rrfKey k A B b) : a = b := by
  have h2 := toLex.injective h
  have h3 := congrArg Prod.snd h2
  have h4 := toLex.injective h3
  exact congrArg Prod.snd h4

theorem rrfLE_trans {k : ℚ} {A B : List String} {a b c : String}
    (h1 : rrfLE k A B a b) (h2 : rrfLE k A B b c) : rrfLE k A B a c := by
  simp only [rrfLE] at h1 h2 ⊢
  exact le_trans h1 h2

theorem rrfLE_total (k : ℚ) (A B : List String) (a b : String) :
    rrfLE k A B a b ∨ rrfLE k A B b a := by
  simp only [rrfLE]
  exact le_total _ _

theorem rrfLE_antisymm {k : ℚ} {A B : List String} {a b : String}
    (h1 : rrfLE k A B a b) (h2 : rrfLE k A B b a) : a = b := by
  simp only [rrfLE] at h1 h2
  exact rrfKey_inj (le_antisymm h1 h2)

theorem merge_sorted (A B : List String) (k : ℚ) :
    (merge A B k).Sorted (rrfLE k A B) := by
  haveI : IsTotal String (rrfLE k A B) := ⟨rrfLE_total k A B⟩
  haveI : IsTrans String (rrfLE k A B) := ⟨fun _ _ _ => rrfLE_trans⟩
  exact List.sorted_insertionSort _ _

theorem merge_nodup (A B : List String) (k : ℚ) : (merge A B k).Nodup :=
  ((List.perm_insertionSort (rrfLE k A B) _).nodup_iff).mpr (List.nodup_dedup _)

theorem mem_merge {A B : List String} {k : ℚ} {c : String} :
    c ∈ merge A B k ↔ c ∈ A ∨ c ∈ B := by
  simp only [merge]
  rw [(List.perm_insertionSort (rrfLE k A B) _).mem_iff, List.mem_dedup, List.mem_append]

/-- A non-strict key comparison between distinct clip ids is the strict
order claimed for the merge output. -/
theorem rrfLE_strict {k : ℚ} {A B : List String} {a b : String}
    (hle : rrfLE k A B a b) (hne : a ≠ b) :
    fusedScore k A B b < fusedScore k A B a ∨
      (fusedScore k A B a = fusedScore k A B b ∧
        (bestRank A B a < bestRank A B b ∨
          (bestRank A B a = bestRank A B b ∧ a < b))) := by
  have hlt : rrfKey k A B a < rrfKey k A B b :=
    lt_of_le_of_ne hle fun hEq => hne (rrfKey_inj hEq)
  simp only [rrfKey] at hlt
  rw [Prod.Lex.lt_iff] at hlt
  rcases hlt with h1 | ⟨h1, h2⟩
  · left
    exact neg_lt_neg_iff.mp h1
  · right
    refine ⟨neg_inj.mp h1, ?_⟩
    rw [Prod.Lex.lt_iff] at h2
    rcases h2 with h3 | ⟨h3, h4⟩
    · exact Or.inl h3
    · exact Or.inr ⟨h3, h4⟩

/-- **C1**: `merge(A, B, k)` orders clip ids by descending fused RRF score
(`Σ 1 / (k + rank)` over the lists containing the clip, 1-based ranks,
absent lists contributing 0), breaking ties first by the clip id's best
(lowest) rank in either input list and then lexicographically by clip id,
and every clip id of either input appears exactly once in the output. -/
theorem merge_ordering_spec (A B : List String) (k : ℚ) (hk : 0 < k) :
    ((merge A B k).Pairwise fun a b =>
        fusedScore k A B b < fusedScore k A B a ∨
          (fusedScore k A B a = fusedScore k A B b ∧
            (bestRank A B a < bestRank A B b ∨
              (bestRank A B a = bestRank A B b ∧ a < b)))) ∧
      (∀ c : String, c ∈ merge A B k ↔ c ∈ A ∨ c ∈ B) ∧
      (merge A B k).Nodup := by
  refine ⟨?_, fun c => mem_merge, merge_nodup A B k⟩
  have hp := List.Pairwise.and (merge_sorted A B k) (merge_nodup A B k)
  exact hp.imp fun h => rrfLE_strict h.1 h.2

/-- Witness for **C1** at a concrete input. -/
theorem merge_ordering_spec_witness :
    (0 : ℚ) < 60 ∧
      (((merge ["a", "b"] ["b", "c"] 60).Pairwise fun a b =>
          fusedScore 60 ["a", "b"] ["b", "c"] b < fusedScore 60 ["a", "b"] ["b", "c"] a ∨
            (fusedScore 60 ["a", "b"] ["b", "c"] a = fusedScore 60 ["a", "b"] ["b", "c"] b ∧
              (bestRank ["a", "b"] ["b", "c"] a < bestRank ["a", "b"] ["b", "c"] b ∨
                (bestRank ["a", "b"] ["b", "c"] a = bestRank ["a", "b"] ["b", "c"] b ∧ a < b)))) ∧
        (∀ c : String, c ∈ merge ["a", "b"] ["b", "c"] 60 ↔ c ∈ ["a", "b"] ∨ c ∈ ["b", "c"]) ∧
        (merge ["a", "b"] ["b", "c"] 60).Nodup) :=
  ⟨by norm_num, merge_ordering_spec ["a", "b"] ["b", "c"] 60 (by norm_num)⟩

theorem fusedScore_comm (k : ℚ) (A B : List String) (c : String) :
    fusedScore k A B c = fusedScore k B A c :=
  add_comm _ _

theorem bestRank_comm (A B : List String) (c : String) :
    bestRank A B c = bestRank B A c := by
  simp only [bestRank]
  rcases rank1 A c with _ | r <;> rcases rank1 B c with _ | s <;> simp [min_comm]

theorem rrfKey_comm (k : ℚ) (A B : List String) (c : String) :
    rrfKey k A B c = rrfKey k B A c := by
  simp only [rrfKey, fusedScore_comm k A B c, bestRank_comm A B c]

theorem rrfLE_comm {k : ℚ} {A B : List String} {a b : String} :
    rrfLE k A B a b ↔ rrfLE k B A a b := by
  simp only [rrfLE, rrfKey_comm k A B]

/-- **C7**: the RRF merge is symmetric in its two list arguments:
`merge(A, B, k)` and `merge(B, A, k)` produce the same final order. -/
theorem merge_symm (A B : List String) (k : ℚ) : merge A B k = merge B A k := by
  haveI : IsAntisymm String (rrfLE k A B) := ⟨fun _ _ h1 h2 => rrfLE_antisymm h1 h2⟩
  have hperm : (merge A B k).Perm (merge B A k) := by
    refine ((List.perm_insertionSort (rrfLE k A B) _).trans ?_).trans
      (List.perm_insertionSort (rrfLE k B A) _).symm
    refine (List.perm_ext_iff_of_nodup (List.nodup_dedup _) (List.nodup_dedup _)).mpr ?_
    intro a
    simp only [List.mem_dedup, List.mem_append]
    exact or_comm
  have hsorted2 : (merge B A k).Sorted (rrfLE k A B) :=
    (merge_sorted B A k).imp fun h => rrfLE_comm.mpr h
  exact List.eq_of_perm_of_sorted hperm (merge_sorted A B k) hsorted2

/-! ## Score Normalizer (§4.4) -/

theorem foldl_min_le_init {α : Type*} [LinearOrder α] (l : List α) (a : α) :
    l.foldl min a ≤ a := by
  induction l generalizing a with
  | nil => exact le_refl a
  | cons x xs ih => exact le_trans (ih (min a x)) (min_le_left a x)

theorem foldl_min_le_mem {α : Type*} [LinearOrder α] {l : List α} {x : α}
    (hx : x ∈ l) (a : α) : l.foldl min a ≤ x := by
  induction l generalizing a with
  | nil => cases hx
  | cons y ys ih =>
    rcases List.mem_cons.mp hx with h | h
    · subst h
      exact le_trans (foldl_min_le_init ys (min a x)) (min_le_right a x)
    · exact ih h (min a y)

theorem foldl_min_mem {α : Type*} [LinearOrder α] (l : List α) (a : α) :
    l.foldl min a = a ∨ l.foldl min a ∈ l := by
  induction l generalizing a with
  | nil => exact Or.inl rfl
  | cons x xs ih =>
    rw [List.foldl_cons]
    rcases ih (min a x) with h | h
    · rcases min_cases a x with ⟨h2, _⟩ | ⟨h2, _⟩
      · left
        rw [h, h2]
      · right
        rw [h, h2]
        exact List.mem_cons_self x xs
    · right
      exact List.mem_cons_of_mem x h

theorem le_foldl_max_init {α : Type*} [LinearOrder α] (l : List α) (a : α) :
    a ≤ l.foldl max a := by
  induction l generalizing a with
  | nil => exact le_refl a
  | cons x xs ih => exact le_trans (le_max_left a x) (ih (max a x))

theorem le_foldl_max_mem {α : Type*} [LinearOrder α] {l : List α} {x : α}
    (hx : x ∈ l) (a : α) : x ≤ l.foldl max a := by
  induction l generalizing a with
  | nil => cases hx
  | cons y ys ih =>
    rcases List.mem_cons.mp hx with h | h
    · subst h
      exact le_trans (le_max_right a x) (le_foldl_max_init ys (max a x))
    · exact ih h (max a y)

theorem foldl_max_mem {α : Type*} [LinearOrder α] (l : List α) (a : α) :
    l.foldl max a = a ∨ l.foldl max a ∈ l := by
  induction l generalizing a with
  | nil => exact Or.inl rfl
  | cons x xs ih =>
    rw [List.foldl_cons]
    rcases ih (max a x) with h | h
    · rcases max_cases a x with ⟨h2, _⟩ | ⟨h2, _⟩
      · left
        rw [h, h2]
      · right
        rw [h, h2]
        exact List.mem_cons_self x xs
    · right
      exact List.mem_cons_of_mem x h

/-- Modelled from the spec: §4.4 `normalize` — the backend normaliser is
absent from the sources; per result batch, `match_score` is
`(raw - min) / (max - min)` over the batch's raw scores, and a degenerate
batch (`max = min`) gets `1` for a single-item batch and `1/2` otherwise. -/
def normalize (batch : List (String × ℚ)) : List (String × ℚ × ℚ) :=
  match batch with
  | [] => []
  | q :: qs =>
    let mn := (qs.map Prod.snd).foldl min q.2
    let mx := (qs.map Prod.snd).foldl max q.2
    (q :: qs).map fun p =>
      (p.1, p.2,
        if mx = mn then (if (q :: qs).length = 1 then 1 else 1 / 2)
        else (p.2 - mn) / (mx - mn))

/-- **C2**: on a non-empty batch, `normalize` assigns every item
`match_score = (raw - min) / (max - min)` over that batch's raw scores,
where `min`/`max` really are the least and greatest raw scores of the
batch; when `max = min` it never divides by zero and instead yields `1`
for a single-item batch and `1/2` for a uniform multi-item batch; on the
raw scores `[0.2, 0.5, 0.8]` the match scores are `[0, 0.5, 1]`. -/
theorem normalize_spec (batch : List (String × ℚ)) (h : batch ≠ []) :
    (∃ mn mx : ℚ,
        mn ∈ batch.map Prod.snd ∧ (∀ s ∈ batch.map Prod.snd, mn ≤ s) ∧
        mx ∈ batch.map Prod.snd ∧ (∀ s ∈ batch.map Prod.snd, s ≤ mx) ∧
        normalize batch =
          batch.map fun p =>
            (p.1, p.2,
              if mx = mn then (if batch.length = 1 then 1 else 1 / 2)
              else (p.2 - mn) / (mx - mn))) ∧
      (normalize [("a", 1 / 5), ("b", 1 / 2), ("c", 4 / 5)]).map (fun t => t.2.2) =
        [0, 1 / 2, 1] := by
  refine ⟨?_, by norm_num [normalize, min_def, max_def]⟩
  cases batch with
  | nil => exact absurd rfl h
  | cons q qs =>
    refine ⟨(qs.map Prod.snd).foldl min q.2, (qs.map Prod.snd).foldl max q.2,
      ?_, ?_, ?_, ?_, rfl⟩
    · rw [List.map_cons]
      rcases foldl_min_mem (qs.map Prod.snd) q.2 with h2 | h2
      · rw [h2]
        exact List.mem_cons_self _ _
      · exact List.mem_cons_of_mem _ h2
    · intro s hs
      rw [List.map_cons, List.mem_cons] at hs
      rcases hs with h2 | h2
      · rw [h2]
        exact foldl_min_le_init _ _
      · exact foldl_min_le_mem h2 _
    · rw [List.map_cons]
      rcases foldl_max_mem (qs.map Prod.snd) q.2 with h2 | h2
      · rw [h2]
        exact List.mem_cons_self _ _
      · exact List.mem_cons_of_mem _ h2
    · intro s hs
      rw [List.map_cons, List.mem_cons] at hs
      rcases hs with h2 | h2
      · rw [h2]
        exact le_foldl_max_init _ _
      · exact le_foldl_max_mem h2 _

/-- Witness for **C2** at a concrete single-item batch. -/
theorem normalize_spec_witness :
    ([("x", (3 : ℚ))] ≠ []) ∧
      ((∃ mn mx : ℚ,
          mn ∈ [("x", (3 : ℚ))].map Prod.snd ∧
          (∀ s ∈ [("x", (3 : ℚ))].map Prod.snd, mn ≤ s) ∧
          mx ∈ [("x", (3 : ℚ))].map Prod.snd ∧
          (∀ s ∈ [("x", (3 : ℚ))].map Prod.snd, s ≤ mx) ∧
          normalize [("x", (3 : ℚ))] =
            [("x", (3 : ℚ))].map fun p =>
              (p.1, p.2,
                if mx = mn then (if ([("x", (3 : ℚ))].length = 1) then 1 else 1 / 2)
                else (p.2 - mn) / (mx - mn))) ∧
        (normalize [("a", 1 / 5), ("b", 1 / 2), ("c", 4 / 5)]).map (fun t => t.2.2) =
          [0, 1 / 2, 1]) :=
  ⟨by decide, normalize_spec [("x", (3 : ℚ))] (by decide)⟩

/-! ## Filter Fallback Controller (§4.3) -/

/-- Modelled from the spec: §4.3 `resolve` — the backend fallback controller
is absent from the sources; if the filtered retrieval already has at least
`threshold` candidates it is returned unchanged, otherwise all filtered
candidates are kept first and unfiltered candidates not already present
are appended in the unfiltered retrieval's relative order until the
combined list reaches the threshold or the pool is exhausted. -/
def resolve (filtered : List String) (threshold : ℕ) (unfiltered : List String) :
    List String :=
  if threshold ≤ filtered.length then filtered
  else
    filtered ++
      (unfiltered.filter fun c => decide (c ∉ filtered)).take
        (threshold - filtered.length)

theorem length_filter_mem_eq {filtered unfiltered : List String}
    (hf : filtered.Nodup) (hu : unfiltered.Nodup)
    (hsub : ∀ c ∈ filtered, c ∈ unfiltered) :
    (unfiltered.filter fun c => decide (c ∈ filtered)).length = filtered.length := by
  refine List.Perm.length_eq ?_
  refine (List.perm_ext_iff_of_nodup (hu.filter _) hf).mpr ?_
  intro a
  simp only [List.mem_filter, decide_eq_true_eq]
  exact ⟨fun h => h.2, fun h => ⟨hsub a h, h⟩⟩

theorem length_filter_not_mem (filtered unfiltered : List String) :
    (unfiltered.filter fun c => decide (c ∉ filtered)).length +
      (unfiltered.filter fun c => decide (c ∈ filtered)).length = unfiltered.length := by
  induction unfiltered with
  | nil => rfl
  | cons x xs ih =>
    by_cases hx : x ∈ filtered
    · rw [List.filter_cons_of_neg (by simp [hx]), List.filter_cons_of_pos (by simp [hx]),
        List.length_cons, List.length_cons]
      omega
    · rw [List.filter_cons_of_pos (by simp [hx]), List.filter_cons_of_neg (by simp [hx]),
        List.length_cons, List.length_cons]
      omega

/-- **C3**: `resolve` returns the filtered candidates unchanged when they
already meet the threshold; otherwise the originally-filtered candidates
come first, followed only by unfiltered candidates not already present,
in the unfiltered retrieval's relative order; and (given candidates drawn
from the unfiltered corpus pool) the result never has fewer candidates
than `min threshold totalCorpusSize`; `resolve` is total and never
errors for too few results. -/
theorem resolve_spec (filtered unfiltered : List String) (threshold : ℕ)
    (hf : filtered.Nodup) (hu : unfiltered.Nodup)
    (hsub : ∀ c ∈ filtered, c ∈ unfiltered) :
    (threshold ≤ filtered.length → resolve filtered threshold unfiltered = filtered) ∧
      (∃ rest, resolve filtered threshold unfiltered = filtered ++ rest ∧
        rest.Sublist unfiltered ∧ ∀ c ∈ rest, c ∉ filtered) ∧
      min threshold unfiltered.length ≤ (resolve filtered threshold unfiltered).length := by
  have hlenf : filtered.length ≤ unfiltered.length := by
    rw [← length_filter_mem_eq hf hu hsub]
    exact List.length_filter_le _ _
  have hsplit := length_filter_not_mem filtered unfiltered
  have hmem := length_filter_mem_eq hf hu hsub
  refine ⟨fun ht => by rw [resolve, if_pos ht], ?_, ?_⟩
  · by_cases ht : threshold ≤ filtered.length
    · refine ⟨[], ?_, List.nil_sublist _, by simp⟩
      rw [resolve, if_pos ht, List.append_nil]
    · refine ⟨_, by rw [resolve, if_neg ht], ?_, ?_⟩
      · exact (List.take_sublist _ _).trans (List.filter_sublist _)
      · intro c hc
        have hc2 := (List.take_sublist _ _).mem hc
        have := (List.mem_filter.mp hc2).2
        exact of_decide_eq_true this
  · by_cases ht : threshold ≤ filtered.length
    · rw [resolve, if_pos ht]
      exact le_trans (min_le_left _ _) ht
    · rw [resolve, if_neg ht]
      rw [List.length_append, List.length_take]
      omega

/-- Witness for **C3** at a concrete input (filtered hits below threshold). -/
theorem resolve_spec_witness :
    (["a"] : List String).Nodup ∧ (["b", "a", "c"] : List String).Nodup ∧
      (∀ c ∈ (["a"] : List String), c ∈ (["b", "a", "c"] : List String)) ∧
      ((3 ≤ (["a"] : List String).length →
          resolve ["a"] 3 ["b", "a", "c"] = ["a"]) ∧
        (∃ rest, resolve ["a"] 3 ["b", "a", "c"] = ["a"] ++ rest ∧
          rest.Sublist ["b", "a", "c"] ∧ ∀ c ∈ rest, c ∉ (["a"] : List String)) ∧
        min 3 (["b", "a", "c"] : List String).length ≤
          (resolve ["a"] 3 ["b", "a", "c"]).length) :=
  ⟨by decide, by decide, by decide,
    resolve_spec ["a"] ["b", "a", "c"] 3 (by decide) (by decide) (by decide)⟩

/-! ## Search Orchestrator — staged streaming protocol (§4.5) -/

/-- Progress status of a pipeline stage event. -/
inductive EvStatus
  | loading
  | done
deriving DecidableEq

/-- An event of the streamed search protocol (§4.5): per-stage progress
events and the two terminal events. -/
inductive Ev
  | progress (id : String) (status : EvStatus)
  | results (items : List String)
  | error (msg : String)
deriving DecidableEq

/-- Modelled from the spec: §4.5 — the orchestrator's streaming loop is
absent from the sources; each stage emits a progress event with `loading`
on entry and `done` on completion, a failing stage ends the stream with a
terminal `error` event, and completing every stage ends it with a
terminal `results` event carrying the final list.  `f s = some msg`
means stage `s` fails with message `msg`. -/
def runStages (f : String → Option String) (final : List String) :
    List String → List Ev
  | [] => [Ev.results final]
  | s :: rest =>
    Ev.progress s EvStatus.loading ::
      match f s with
      | none => Ev.progress s EvStatus.done :: runStages f final rest
      | some msg => [Ev.error msg]

/-- Whether an event is terminal (`results` or `error`). -/
def isTerminal : Ev → Bool
  | Ev.results _ => true
  | Ev.error _ => true
  | Ev.progress _ _ => false

theorem runStages_struct (f : String → Option String) (final : List String) :
    ∀ stages : List String,
      ∃ k, k ≤ stages.length ∧ (∀ s ∈ stages.take k, f s = none) ∧
        ((k = stages.length ∧
            runStages f final stages =
              ((stages.take k).flatMap fun s =>
                [Ev.progress s EvStatus.loading, Ev.progress s EvStatus.done]) ++
                [Ev.results final]) ∨
          (∃ s msg rest, stages.drop k = s :: rest ∧ f s = some msg ∧
            runStages f final stages =
              ((stages.take k).flatMap fun s =>
                [Ev.progress s EvStatus.loading, Ev.progress s EvStatus.done]) ++
                [Ev.progress s EvStatus.loading, Ev.error msg]))
  | [] => ⟨0, le_refl 0, by simp, Or.inl ⟨rfl, by simp [runStages]⟩⟩
  | s :: rest => by
    cases hf : f s with
    | none =>
      obtain ⟨k, hk, hnone, hshape⟩ := runStages_struct f final rest
      refine ⟨k + 1, by simpa using hk, ?_, ?_⟩
      · intro t ht
        rw [List.take_succ_cons, List.mem_cons] at ht
        rcases ht with h | h
        · rw [h, hf]
        · exact hnone t h
      · rcases hshape with ⟨hk2, heq⟩ | ⟨t, msg, rest2, hdrop, hft, heq⟩
        · refine Or.inl ⟨by simp [hk2], ?_⟩
          simp only [runStages, hf, List.take_succ_cons, List.flatMap_cons, heq]
          simp
        · refine Or.inr ⟨t, msg, rest2, by simpa using hdrop, hft, ?_⟩
          simp only [runStages, hf, List.take_succ_cons, List.flatMap_cons, heq]
          simp
    | some msg =>
      exact ⟨0, Nat.zero_le _, by simp,
        Or.inr ⟨s, msg, rest, rfl, hf, by simp [runStages, hf]⟩⟩

theorem runStages_terminal (f : String → Option String) (final : List String) :
    ∀ stages : List String,
      ∃ pre last, runStages f final stages = pre ++ [last] ∧
        isTerminal last = true ∧ ∀ e ∈ pre, isTerminal e = false
  | [] => ⟨[], Ev.results final, rfl, rfl, by simp⟩
  | s :: rest => by
    cases hf : f s with
    | none =>
      obtain ⟨pre, last, heq, hterm, hpre⟩ := runStages_terminal f final rest
      refine ⟨Ev.progress s EvStatus.loading :: Ev.progress s EvStatus.done :: pre,
        last, by simp [runStages, hf, heq], hterm, ?_⟩
      intro e he
      rcases List.mem_cons.mp he with h | h
      · rw [h]; rfl
      · rcases List.mem_cons.mp h with h2 | h2
        · rw [h2]; rfl
        · exact hpre e h2
    | some msg =>
      exact ⟨[Ev.progress s EvStatus.loading], Ev.error msg,
        by simp [runStages, hf], rfl, by simp [isTerminal]⟩

/-- **C4**: for every streamed query the event sequence consists, in stage
order, of a `loading` then a `done` progress event per completed stage
(the `done` preceding the next stage's `loading`), the ids matching the
stage names; the stream ends with exactly one terminal event — `results`
after all stages complete, or `error` from the failing stage, mutually
exclusive — and no event of any kind follows the terminal event. -/
theorem stream_protocol_spec (stages : List String) (f : String → Option String)
    (final : List String) :
    (∃ k, k ≤ stages.length ∧ (∀ s ∈ stages.take k, f s = none) ∧
        ((k = stages.length ∧
            runStages f final stages =
              ((stages.take k).flatMap fun s =>
                [Ev.progress s EvStatus.loading, Ev.progress s EvStatus.done]) ++
                [Ev.results final]) ∨
          (∃ s msg rest, stages.drop k = s :: rest ∧ f s = some msg ∧
            runStages f final stages =
              ((stages.take k).flatMap fun s =>
                [Ev.progress s EvStatus.loading, Ev.progress s EvStatus.done]) ++
                [Ev.progress s EvStatus.loading, Ev.error msg]))) ∧
      (∃ pre last, runStages f final stages = pre ++ [last] ∧
        isTerminal last = true ∧ ∀ e ∈ pre, isTerminal e = false) ∧
      (runStages f final stages).countP isTerminal = 1 := by
  refine ⟨runStages_struct f final stages, runStages_terminal f final stages, ?_⟩
  obtain ⟨pre, last, heq, hterm, hpre⟩ := runStages_terminal f final stages
  rw [heq, List.countP_append]
  have h0 : pre.countP isTerminal = 0 := by
    rw [List.countP_eq_zero]
    intro e he
    simp [hpre e he]
  rw [h0]
  simp [List.countP_cons, hterm]

/-! ## Filter Model (§4.1) -/

/-- The closed set of categorical metadata fields a filter may reference. -/
inductive Field
  | location
  | time_of_day
  | int_ext
  | actors
  | scene_id
deriving DecidableEq, Fintype

/-- A clip's categorical metadata (§3). -/
structure Clip where
  clip_id : String
  scene_id : String
  location : String
  time_of_day : String
  int_ext : String
  actors : List String

/-- The attribute values a clip has for a field (a one-element list for the
scalar fields, the actor list for `actors`). -/
def clipValues (c : Clip) : Field → List String
  | Field.location => [c.location]
  | Field.time_of_day => [c.time_of_day]
  | Field.int_ext => [c.int_ext]
  | Field.actors => c.actors
  | Field.scene_id => [c.scene_id]

/-- One filter clause: a mapping from fields to accepted value sets. -/
abbrev Clause : Type := List (Field × List String)

/-- Modelled from the spec: §3 `FilterSet` — three independent clauses. -/
structure FilterSet where
  must : Clause
  should : Clause
  must_not : Clause

/-- Case normalisation applied before comparing filter values (§4.1). -/
def normValue (s : String) : String := s.toLower

/-- A single field/value-set pair is satisfied by the clip: some attribute
value of the field equals (case-normalised) some accepted value. -/
def pairMatches (c : Clip) (f : Field) (vals : List String) : Bool :=
  (clipValues c f).any fun v => vals.any fun w => normValue v == normValue w

/-- Modelled from the spec: §4.1 `matches(clip, filterSet)` — every `must`
pair must hold, at least one `should` pair when `should` is non-empty,
and no `must_not` pair may hold; an empty clause is vacuously satisfied. -/
def matchesFilter (c : Clip) (fs : FilterSet) : Bool :=
  (fs.must.all fun p => pairMatches c p.1 p.2) &&
    (fs.should.isEmpty || fs.should.any fun p => pairMatches c p.1 p.2) &&
    (fs.must_not.all fun p => !pairMatches c p.1 p.2)

/-- The empty filter set (all three clauses empty). -/
def emptyFilterSet : FilterSet := ⟨[], [], []⟩

/-- **C5**: the empty filter set (all three clauses empty) matches every
clip, and a filter set whose `must_not` clause contains every attribute
value the clip has matches no clip. -/
theorem matches_spec (c : Clip) (F : FilterSet)
    (hcover : ∀ f : Field, ∀ v ∈ clipValues c f,
      ∃ entry ∈ F.must_not, entry.1 = f ∧ v ∈ entry.2) :
    matchesFilter c emptyFilterSet = true ∧ matchesFilter c F = false := by
  refine ⟨rfl, ?_⟩
  obtain ⟨entry, hmem, hfield, hv⟩ :=
    hcover Field.location c.location (by simp [clipValues])
  have hpair : pairMatches c entry.1 entry.2 = true := by
    rw [hfield, pairMatches, List.any_eq_true]
    refine ⟨c.location, by simp [clipValues], ?_⟩
    rw [List.any_eq_true]
    exact ⟨c.location, hv, by simp⟩
  have hall : (F.must_not.all fun p => !pairMatches c p.1 p.2) = false := by
    rw [Bool.eq_false_iff]
    intro hcontra
    rw [List.all_eq_true] at hcontra
    have h2 := hcontra entry hmem
    rw [hpair] at h2
    simp at h2
  simp [matchesFilter, hall]

/-- Witness for **C5** at a concrete clip and covering filter. -/
theorem matches_spec_witness :
    (∀ f : Field, ∀ v ∈ clipValues ⟨"c1", "s1", "OFFICE", "DAY", "INT", ["DON"]⟩ f,
        ∃ entry ∈ (FilterSet.mk []
            [] [(Field.location, ["OFFICE"]), (Field.time_of_day, ["DAY"]),
              (Field.int_ext, ["INT"]), (Field.actors, ["DON"]),
              (Field.scene_id, ["s1"])]).must_not,
          entry.1 = f ∧ v ∈ entry.2) ∧
      (matchesFilter ⟨"c1", "s1", "OFFICE", "DAY", "INT", ["DON"]⟩ emptyFilterSet = true ∧
        matchesFilter ⟨"c1", "s1", "OFFICE", "DAY", "INT", ["DON"]⟩
          (FilterSet.mk []
            [] [(Field.location, ["OFFICE"]), (Field.time_of_day, ["DAY"]),
              (Field.int_ext, ["INT"]), (Field.actors, ["DON"]),
              (Field.scene_id, ["s1"])]) = false) :=
  ⟨by decide, matches_spec _ _ (by decide)⟩

/-! ## Limit clamping (§4.5) -/

/-- Modelled from the spec: §4.5 — the caller-supplied `limit` is clamped
silently to the inclusive range `[1, 20]`, never raising an error. -/
def clampLimit (limit : ℤ) : ℕ := (max 1 (min 20 limit)).toNat

/-- Modelled from the spec: §4.5 — the final output list is truncated to at
most the clamped limit after reranking. -/
def finalOutput (results : List String) (limit : ℤ) : List String :=
  results.take (clampLimit limit)

/-- **C6**: the search operation clamps the caller-supplied limit to the
inclusive range `[1, 20]` without error: `0` or any negative input is
treated as `1`, any input above `20` (e.g. `500`) is treated as `20`, and
the final output list has at most `min(limit, 20)` results (with the
clamped limit). -/
theorem clampLimit_spec (limit : ℤ) (results : List String) :
    1 ≤ clampLimit limit ∧ clampLimit limit ≤ 20 ∧
      (limit ≤ 0 → clampLimit limit = 1) ∧
      (20 ≤ limit → clampLimit limit = 20) ∧
      (finalOutput results limit).length ≤ min (clampLimit limit) 20 := by
  refine ⟨?_, ?_, fun h => ?_, fun h => ?_, ?_⟩
  · simp only [clampLimit]
    omega
  · simp only [clampLimit]
    omega
  · simp only [clampLimit]
    omega
  · simp only [clampLimit]
    omega
  · simp only [finalOutput, List.length_take, clampLimit]
    omega

/-- Witness for **C6** at the concrete out-of-range limits 0, −7 and 500. -/
theorem clampLimit_spec_witness :
    ((0 : ℤ) ≤ 0 ∧ clampLimit 0 = 1) ∧
      ((-7 : ℤ) ≤ 0 ∧ clampLimit (-7) = 1) ∧
      ((20 : ℤ) ≤ 500 ∧ clampLimit 500 = 20) ∧
      (finalOutput ["a", "b"] (-7)).length ≤ min (clampLimit (-7)) 20 :=
  ⟨⟨by decide, (clampLimit_spec 0 []).2.2.1 (by decide)⟩,
    ⟨by decide, (clampLimit_spec (-7) []).2.2.1 (by decide)⟩,
    ⟨by decide, (clampLimit_spec 500 []).2.2.2.1 (by decide)⟩,
    (clampLimit_spec (-7) ["a", "b"]).2.2.2.2⟩

/-! ## Frontend stream consumer — `searchStream` (`frontend/src/lib/api.ts`) -/

/-- A parsed `data:` payload as `searchStream` sees it after `JSON.parse`:
the `[DONE]` marker, a malformed (unparseable) payload, a
`data-status` progress object, a terminal `results` array, a terminal
`error` object with a non-empty `errorText`, or any other object (all of
which the loop skips). -/
inductive Payload
  | doneMarker
  | malformed
  | statusObj (d : String)
  | resultsObj (items : List String)
  | errorObj (msg : String)
  | other
deriving DecidableEq

/-- One line of the response stream: a line that does not start with
`data:`, or a `data:` line together with its payload. -/
inductive Line
  | notData
  | data (p : Payload)
deriving DecidableEq

/-- A callback invocation made by `searchStream`. -/
inductive Cb
  | status (d : String)
  | results (items : List String)
  | error (msg : String)
deriving DecidableEq

/-- Embedding of the `searchStream` read loop
(`frontend/src/lib/api.ts`, lines 53–88): the sequence of callback
invocations performed on a given sequence of stream lines.  A `results`
or `error` payload and the `[DONE]` marker return immediately; non-`data:`
lines, malformed payloads and unrecognised objects are skipped; a stream
that ends without a terminal line falls through to `onResults([])`. -/
def searchStream : List Line → List Cb
  | [] => [Cb.results []]
  | Line.notData :: rest => searchStream rest
  | Line.data Payload.doneMarker :: _ => []
  | Line.data Payload.malformed :: rest => searchStream rest
  | Line.data (Payload.statusObj d) :: rest => Cb.status d :: searchStream rest
  | Line.data (Payload.resultsObj items) :: _ => [Cb.results items]
  | Line.data (Payload.errorObj msg) :: _ => [Cb.error msg]
  | Line.data Payload.other :: rest => searchStream rest

/-- Whether a callback is one of the two terminal callbacks. -/
def isTerminalCb : Cb → Bool
  | Cb.status _ => false
  | Cb.results _ => true
  | Cb.error _ => true

/-- Whether a line makes `searchStream` return immediately. -/
def isStopLine : Line → Bool
  | Line.data Payload.doneMarker => true
  | Line.data (Payload.resultsObj _) => true
  | Line.data (Payload.errorObj _) => true
  | _ => false

theorem searchStream_struct (lines : List Line) :
    ∃ pre tail, searchStream lines = pre ++ tail ∧
      (∀ cb ∈ pre, ∃ d, cb = Cb.status d) ∧
      (tail = [] ∨ ∃ t, tail = [t] ∧ isTerminalCb t = true) := by
  induction lines with
  | nil => exact ⟨[], [Cb.results []], rfl, by simp, Or.inr ⟨_, rfl, rfl⟩⟩
  | cons l rest ih =>
    cases l with
    | notData => exact ih
    | data p =>
      cases p with
      | doneMarker => exact ⟨[], [], rfl, by simp, Or.inl rfl⟩
      | malformed => exact ih
      | other => exact ih
      | statusObj d =>
        obtain ⟨pre, tail, heq, hpre, htail⟩ := ih
        refine ⟨Cb.status d :: pre, tail, by simp [searchStream, heq], ?_, htail⟩
        intro cb hcb
        rcases List.mem_cons.mp hcb with h | h
        · exact ⟨d, h⟩
        · exact hpre cb h
      | resultsObj items => exact ⟨[], [Cb.results items], rfl, by simp, Or.inr ⟨_, rfl, rfl⟩⟩
      | errorObj msg => exact ⟨[], [Cb.error msg], rfl, by simp, Or.inr ⟨_, rfl, rfl⟩⟩

theorem singleton_append_cons {α : Type*} {x e : α} {pre post : List α}
    (h : [x] = pre ++ e :: post) : post = [] := by
  rcases pre with _ | ⟨y, pre⟩
  · rw [List.nil_append] at h
    injection h with _ h2
    exact h2.symm
  · rw [List.cons_append] at h
    injection h with _ h2
    have h3 := congrArg List.length h2
    simp only [List.length_nil, List.length_append, List.length_cons] at h3
    omega

theorem searchStream_terminal_last :
    ∀ (lines : List Line) (pre : List Cb) (e : Cb) (post : List Cb),
      searchStream lines = pre ++ e :: post → isTerminalCb e = true → post = [] := by
  intro lines
  induction lines with
  | nil =>
    intro pre e post h _
    exact singleton_append_cons h
  | cons l rest ih =>
    intro pre e post h hterm
    cases l with
    | notData => exact ih pre e post h hterm
    | data p =>
      cases p with
      | doneMarker =>
        simp only [searchStream] at h
        have h2 := congrArg List.length h
        simp only [List.length_nil, List.length_append, List.length_cons] at h2
        omega
      | malformed => exact ih pre e post h hterm
      | other => exact ih pre e post h hterm
      | statusObj d =>
        simp only [searchStream] at h
        rcases pre with _ | ⟨x, pre⟩
        · rw [List.nil_append] at h
          injection h with h1 _
          rw [← h1] at hterm
          exact absurd hterm (by simp [isTerminalCb])
        · rw [List.cons_append] at h
          injection h with _ h2
          exact ih pre e post h2 hterm
      | resultsObj items =>
        simp only [searchStream] at h
        exact singleton_append_cons h
      | errorObj msg =>
        simp only [searchStream] at h
        exact singleton_append_cons h

/-- **C8**: on every stream, the `searchStream` loop invokes at most one
terminal callback (`onResults` or `onError`, never both); nothing is
invoked after a terminal callback; it stops at the first `results`,
`error` or `[DONE]` line regardless of what follows; and if the stream
ends with no such line it falls through to `onResults([])`, with every
other line skipped rather than throwing. -/
theorem searchStream_spec :
    (∀ lines : List Line, (searchStream lines).countP isTerminalCb ≤ 1) ∧
      (∀ (lines : List Line) (pre : List Cb) (e : Cb) (post : List Cb),
        searchStream lines = pre ++ e :: post → isTerminalCb e = true → post = []) ∧
      (∀ lines : List Line, (∀ l ∈ lines, isStopLine l = false) →
        ∃ pre, searchStream lines = pre ++ [Cb.results []] ∧
          ∀ cb ∈ pre, ∃ d, cb = Cb.status d) ∧
      (∀ (pre : List Line) (l : Line) (post : List Line), isStopLine l = true →
        searchStream (pre ++ l :: post) = searchStream (pre ++ [l])) := by
  refine ⟨?_, searchStream_terminal_last, ?_, ?_⟩
  · intro lines
    obtain ⟨pre, tail, heq, hpre, htail⟩ := searchStream_struct lines
    rw [heq, List.countP_append]
    have h0 : pre.countP isTerminalCb = 0 := by
      rw [List.countP_eq_zero]
      intro cb hcb
      obtain ⟨d, hd⟩ := hpre cb hcb
      simp [hd, isTerminalCb]
    rcases htail with h | ⟨t, ht, hterm⟩
    · simp [h0, h]
    · simp [h0, ht, List.countP_cons, hterm]
  · intro lines
    induction lines with
    | nil => exact fun _ => ⟨[], by simp [searchStream], by simp⟩
    | cons l rest ih =>
      intro hns
      have hl := hns l (List.mem_cons_self _ _)
      have hrest : ∀ l ∈ rest, isStopLine l = false :=
        fun x hx => hns x (List.mem_cons_of_mem _ hx)
      cases l with
      | notData => exact ih hrest
      | data p =>
        cases p with
        | doneMarker => simp [isStopLine] at hl
        | resultsObj items => simp [isStopLine] at hl
        | errorObj msg => simp [isStopLine] at hl
        | malformed => exact ih hrest
        | other => exact ih hrest
        | statusObj d =>
          obtain ⟨pre, heq, hpre⟩ := ih hrest
          refine ⟨Cb.status d :: pre, by simp [searchStream, heq], ?_⟩
          intro cb hcb
          rcases List.mem_cons.mp hcb with h | h
          · exact ⟨d, h⟩
          · exact hpre cb h
  · intro pre l post hstop
    induction pre with
    | nil =>
      cases l with
      | notData => simp [isStopLine] at hstop
      | data p => cases p <;> simp_all [isStopLine, searchStream]
    | cons x pre ih =>
      cases x with
      | notData => simpa [searchStream] using ih
      | data p =>
        cases p <;> simp [searchStream] <;> exact ih

/-- Witness for **C8** on a concrete stream with no terminal line. -/
theorem searchStream_spec_witness :
    (∀ l ∈ [Line.notData, Line.data Payload.malformed], isStopLine l = false) ∧
      ∃ pre, searchStream [Line.notData, Line.data Payload.malformed] =
          pre ++ [Cb.results []] ∧
        ∀ cb ∈ pre, ∃ d, cb = Cb.status d :=
  ⟨by decide, searchStream_spec.2.2.1 _ (by decide)⟩

/-! ## ClipCard rendering (`components/ClipCard.tsx`) -/

/-- `DEFAULT_VIDEO_DURATION_SEC` from `ClipCard`. -/
def DEFAULT_VIDEO_DURATION_SEC : ℚ := 10500

/-- The playback window a `ClipCard` presents: start and stop time in
seconds and whether the card shows the random-fallback flag. -/
structure PlaybackWindow where
  start : ℚ
  stop : ℚ
  isFallback : Bool

/-- Embedding of the `ClipCard` timestamp logic: with
`hasValidTimestamps = rawEnd > rawStart && rawStart >= 0`, valid
timestamps are used unchanged; otherwise the card plays one minute from
the random fallback start `⌊rand * max(0, DEFAULT_VIDEO_DURATION_SEC - 60)⌋`,
where `rand ∈ [0, 1)` models `Math.random()`. -/
def clipWindow (rawStart rawEnd : ℚ) (rand : ℚ) : PlaybackWindow :=
  if rawEnd > rawStart ∧ rawStart ≥ 0 then
    ⟨rawStart, rawEnd, false⟩
  else
    ⟨((⌊rand * max 0 (DEFAULT_VIDEO_DURATION_SEC - 60)⌋ : ℤ) : ℚ),
      ((⌊rand * max 0 (DEFAULT_VIDEO_DURATION_SEC - 60)⌋ : ℤ) : ℚ) + 60, true⟩

/-- **C9**: when a result's timestamps violate `end > start ≥ 0`, `ClipCard`
substitutes a playback window of exactly 60 seconds whose start lies in
`[0, 10440]` (`DEFAULT_VIDEO_DURATION_SEC - 60`) and flags the clip as a
random fallback clip; timestamps satisfying the invariant are used
unchanged. -/
theorem clipCard_timestamps (s e r : ℚ) (h0 : 0 ≤ r) (h1 : r < 1) :
    ((e > s ∧ s ≥ 0) → clipWindow s e r = ⟨s, e, false⟩) ∧
      (¬(e > s ∧ s ≥ 0) →
        (clipWindow s e r).stop - (clipWindow s e r).start = 60 ∧
          0 ≤ (clipWindow s e r).start ∧
          (clipWindow s e r).start ≤ 10440 ∧
          (clipWindow s e r).isFallback = true) := by
  constructor
  · intro h
    rw [clipWindow, if_pos h]
  · intro h
    have hmax : max (0 : ℚ) (DEFAULT_VIDEO_DURATION_SEC - 60) = 10440 := by
      rw [DEFAULT_VIDEO_DURATION_SEC]
      norm_num
    have hnn : (0 : ℤ) ≤ ⌊r * 10440⌋ :=
      Int.floor_nonneg.mpr (mul_nonneg h0 (by norm_num))
    have hub : ⌊r * 10440⌋ ≤ 10440 := by
      have h3 : r * 10440 < 10440 := by nlinarith
      have h2 : ⌊r * (10440 : ℚ)⌋ < (10440 : ℤ) := Int.floor_lt.mpr (by exact_mod_cast h3)
      omega
    have hwin : clipWindow s e r =
        ⟨((⌊r * 10440⌋ : ℤ) : ℚ), ((⌊r * 10440⌋ : ℤ) : ℚ) + 60, true⟩ := by
      rw [clipWindow, if_neg h, hmax]
    rw [hwin]
    refine ⟨?_, ?_, ?_, rfl⟩
    · show ((⌊r * 10440⌋ : ℤ) : ℚ) + 60 - ((⌊r * 10440⌋ : ℤ) : ℚ) = 60
      ring
    · show (0 : ℚ) ≤ ((⌊r * 10440⌋ : ℤ) : ℚ)
      exact_mod_cast hnn
    · show ((⌊r * 10440⌋ : ℤ) : ℚ) ≤ 10440
      exact_mod_cast hub

/-- Witness for **C9** at invalid timestamps `start = 5 > end = 3`. -/
theorem clipCard_timestamps_witness :
    (0 : ℚ) ≤ 1 / 2 ∧ (1 / 2 : ℚ) < 1 ∧ ¬((3 : ℚ) > 5 ∧ (5 : ℚ) ≥ 0) ∧
      ((clipWindow 5 3 (1 / 2)).stop - (clipWindow 5 3 (1 / 2)).start = 60 ∧
        0 ≤ (clipWindow 5 3 (1 / 2)).start ∧
        (clipWindow 5 3 (1 / 2)).start ≤ 10440 ∧
        (clipWindow 5 3 (1 / 2)).isFallback = true) :=
  ⟨by norm_num, by norm_num, by norm_num,
    (clipCard_timestamps 5 3 (1 / 2) (by norm_num) (by norm_num)).2 (by norm_num)⟩

/-- Embedding of the `ClipCard` displayed score
(`result.match_score ?? result.score ?? 0`). -/
def displayScore (match_score score : Option ℚ) : ℚ :=
  match match_score with
  | some v => v
  | none =>
    match score with
    | some w => w
    | none => 0

/-- Whether the numeric value is appended to the confidence badge
(`typeof matchScore === "number" && matchScore !== 0`). -/
def scoreAppended (match_score score : Option ℚ) : Bool :=
  decide (displayScore match_score score ≠ 0)

/-- Embedding of the `ClipCard` confidence label: exactly `"High"` and
`"Medium"` render as themselves; every other confidence — including
`"Low"` and a missing value — renders as `"Relevant"`. -/
def confidenceLabel (confidence : Option String) : String :=
  match confidence with
  | some c =>
    if c = "High" then "High" else if c = "Medium" then "Medium" else "Relevant"
  | none => "Relevant"

/-- **C10**: the displayed score is `match_score` when present, else the
raw `score`, else `0`; the numeric value is appended to the badge exactly
when it is non-zero; and every confidence other than exactly `"High"` or
`"Medium"` — including `"Low"` and a missing confidence — is rendered as
`"Relevant"`. -/
theorem clipCard_badge (sc : Option ℚ) (v : ℚ) (c : String)
    (hc1 : c ≠ "High") (hc2 : c ≠ "Medium") :
    displayScore (some v) sc = v ∧
      displayScore none (some v) = v ∧
      displayScore none none = 0 ∧
      (scoreAppended (some v) sc = true ↔ v ≠ 0) ∧
      confidenceLabel (some "High") = "High" ∧
      confidenceLabel (some "Medium") = "Medium" ∧
      confidenceLabel (some "Low") = "Relevant" ∧
      confidenceLabel none = "Relevant" ∧
      confidenceLabel (some c) = "Relevant" := by
  refine ⟨rfl, rfl, rfl, ?_, rfl, rfl, rfl, rfl, ?_⟩
  · simp [scoreAppended, displayScore]
  · simp [confidenceLabel, hc1, hc2]

/-- Witness for **C10** at a lowercase confidence value. -/
theorem clipCard_badge_witness :
    ("low" ≠ "High") ∧ ("low" ≠ "Medium") ∧
      (displayScore (some 7) none = 7 ∧
        displayScore none (some 7) = 7 ∧
        displayScore none none = 0 ∧
        (scoreAppended (some 7) none = true ↔ (7 : ℚ) ≠ 0) ∧
        confidenceLabel (some "High") = "High" ∧
        confidenceLabel (some "Medium") = "Medium" ∧
        confidenceLabel (some "Low") = "Relevant" ∧
        confidenceLabel none = "Relevant" ∧
        confidenceLabel (some "low") = "Relevant") :=
  ⟨by decide, by decide, clipCard_badge none 7 "low" (by decide) (by decide)⟩

end CineAI
